import Mathlib

/-!
Verification of the Achilles nuclear Monte Carlo toolkit against its
specification.  The adaptive-map grid, form-factor and nucleus code is
embedded shallowly over exact rationals: C++ `double` arithmetic becomes
`ℚ` arithmetic, `std::vector<double>` becomes `List ℚ`, and fallible
operations return `Except`.
-/

set_option maxHeartbeats 1000000

namespace Achilles

/-! ## Form factors (src/unnamed/part_000, class layout from its usage) -/

/-- Record of form-factor values.  The header declaring `FormFactor::Values`
is not among the provided sources; the fields are exactly those read and
written by the provided implementation file. -/
structure Values where
  Gep : ℚ
  Gen : ℚ
  Gmp : ℚ
  Gmn : ℚ
  Ges : ℚ
  Gev : ℚ
  Gms : ℚ
  Gmv : ℚ
  F1s : ℚ
  F1v : ℚ
  F2s : ℚ
  F2v : ℚ
deriving DecidableEq

/-- The zero-initialised `Values result{}` of the C++ source. -/
def Values.zero : Values := ⟨0, 0, 0, 0, 0, 0, 0, 0, 0, 0, 0, 0⟩

/-- `nuchic::FormFactor::Fill(tau, result)`: sequential field assignments,
each later assignment reading the already-updated fields. -/
def Fill (tau : ℚ) (result : Values) : Values :=
  let r1 := { result with Ges := result.Gep + result.Gen }
  let r2 := { r1 with Gev := r1.Gep - r1.Gen }
  let r3 := { r2 with Gms := r2.Gmp + r2.Gmn }
  let r4 := { r3 with Gmv := r3.Gmp - r3.Gmn }
  let r5 := { r4 with F1s := (r4.Ges + tau * r4.Gms) / (1 + tau) }
  let r6 := { r5 with F1v := (r5.Gev + tau * r5.Gmv) / (1 + tau) }
  let r7 := { r6 with F2s := (r6.Gms + tau * r6.Ges) / (1 + tau) }
  { r7 with F2v := (r7.Gmv + tau * r7.Gev) / (1 + tau) }

/-- Configuration of `nuchic::Dipole` (fields set by its constructor). -/
structure Dipole where
  lambda : ℚ
  MA : ℚ
  muP : ℚ
  muN : ℚ

/-- `nuchic::Dipole::operator()(Q2)`.  `mpGeV` stands for the constant
`Constant::mp/1_GeV` whose defining header is not among the sources; it is
kept as an explicit parameter.  The two successive assignments to `Gmp`
of the source are both present. -/
def Dipole.eval (ff : Dipole) (mpGeV : ℚ) (Q2 : ℚ) : Values :=
  let r0 : Values := Values.zero
  let r1 := { r0 with Gep := 1 / (1 + Q2 / ff.lambda / ff.lambda) ^ 2 }
  let r2 := { r1 with Gen := -ff.muN * Q2 * r1.Gep / (1 + Q2 / mpGeV ^ 2) / (4 * mpGeV ^ 2) }
  let r3 := { r2 with Gmp := ff.muP * r2.Gep }
  let r4 := { r3 with Gmp := ff.muN * r3.Gep }
  let tau := Q2 / 4 / mpGeV ^ 2
  Fill tau r4

/-- The four concrete form-factor classes recognised by `FormFactor::Build`. -/
inductive FFKind where
  | dipole
  | kelly
  | bbba
  | arringtonHill
deriving DecidableEq

/-- `nuchic::FormFactor::Build`: dispatch on the configuration's
"FormFactor" string; unknown names throw a runtime error. -/
def Build (formFactor : String) : Except String FFKind :=
  if formFactor = "Dipole" then Except.ok FFKind.dipole
  else if formFactor = "Kelly" then Except.ok FFKind.kelly
  else if formFactor = "BBBA" then Except.ok FFKind.bbba
  else if formFactor = "ArringtonHill" then Except.ok FFKind.arringtonHill
  else Except.error ("Invalid Form Factor: " ++ formFactor)

/-! ## Nucleus (src/include/nuchic/Nucleus.hh) -/

/-- State of a `Nucleus`, generic in the particle type since the `Particle`
class is declared only forward in the provided sources. -/
structure Nucleus (P : Type) where
  nucleons : List P
  protons : List P
  neutrons : List P
  binding : ℚ
  fermiMomentum : ℚ
  radius : ℚ
  potential : ℚ

/-- `Nucleus::SetBindingEnergy`. -/
def Nucleus.SetBindingEnergy {P : Type} (n : Nucleus P) (energy : ℚ) : Nucleus P :=
  { n with binding := energy }

/-- `Nucleus::SetFermiMomentum`. -/
def Nucleus.SetFermiMomentum {P : Type} (n : Nucleus P) (mom : ℚ) : Nucleus P :=
  { n with fermiMomentum := mom }

/-- `Nucleus::SetPotential`. -/
def Nucleus.SetPotential {P : Type} (n : Nucleus P) (energy : ℚ) : Nucleus P :=
  { n with potential := energy }

/-- `Nucleus::BindingEnergy`. -/
def Nucleus.BindingEnergy {P : Type} (n : Nucleus P) : ℚ := n.binding

/-- `Nucleus::FermiMomentum`. -/
def Nucleus.FermiMomentum {P : Type} (n : Nucleus P) : ℚ := n.fermiMomentum

/-- `Nucleus::PotentialEnergy`. -/
def Nucleus.PotentialEnergy {P : Type} (n : Nucleus P) : ℚ := n.potential

/-- `Nucleus::Radius`. -/
def Nucleus.Radius {P : Type} (n : Nucleus P) : ℚ := n.radius

/-- `Nucleus::Nucleons`. -/
def Nucleus.Nucleons {P : Type} (n : Nucleus P) : List P := n.nucleons

/-- `Nucleus::Protons`. -/
def Nucleus.Protons {P : Type} (n : Nucleus P) : List P := n.protons

/-- `Nucleus::Neutrons`. -/
def Nucleus.Neutrons {P : Type} (n : Nucleus P) : List P := n.neutrons

/-! ## AdaptiveMap2 (split-variant map, src/include/nuchic/Nucleus.hh) -/

/-- State of the split-variant map: the flat edge array `m_hist` addressed
by `dim*(m_bins+1)+bin`, with the dimension and bin counts. -/
structure AdaptiveMap2 where
  m_hist : List ℚ
  m_dims : Nat
  m_bins : Nat
deriving DecidableEq

/-- The `AdaptiveMap2(dims, bins)` constructor: value-initialise a vector
of length `dims*(bins+1)`, write the uniform edges `i/bins` into indices
`0..bins`, then `std::copy` that first block into every further
dimension's block. -/
def AdaptiveMap2.construct (dims bins : Nat) : AdaptiveMap2 :=
  let h0 : List ℚ := List.replicate (dims * (bins + 1)) 0
  let h1 := (List.range (bins + 1)).foldl
    (fun acc i => acc.set i ((i : ℚ) / (bins : ℚ))) h0
  let h2 := (List.range' 1 (dims - 1)).foldl
    (fun acc i => (List.range (bins + 1)).foldl
      (fun a j => a.set (i * (bins + 1) + j) (a.getD j 0)) acc) h1
  ⟨h2, dims, bins⟩

/-- Index read by `AdaptiveMap2::lower_edge`. -/
def AdaptiveMap2.lowerIndex (m : AdaptiveMap2) (dim bin : Nat) : Nat :=
  dim * (m.m_bins + 1) + bin

/-- Index read by `AdaptiveMap2::upper_edge`. -/
def AdaptiveMap2.upperIndex (m : AdaptiveMap2) (dim bin : Nat) : Nat :=
  dim * (m.m_bins + 1) + bin + 1

/-- `AdaptiveMap2::lower_edge`: `m_hist[dim*(m_bins+1) + bin]` (total
embedding: an out-of-bounds read returns the default `0`). -/
def AdaptiveMap2.lower_edge (m : AdaptiveMap2) (dim bin : Nat) : ℚ :=
  m.m_hist.getD (dim * (m.m_bins + 1) + bin) 0

/-- `AdaptiveMap2::upper_edge`: `m_hist[dim*(m_bins+1) + bin + 1]`. -/
def AdaptiveMap2.upper_edge (m : AdaptiveMap2) (dim bin : Nat) : ℚ :=
  m.m_hist.getD (dim * (m.m_bins + 1) + bin + 1) 0

/-- `AdaptiveMap2::width`. -/
def AdaptiveMap2.width (m : AdaptiveMap2) (dim bin : Nat) : ℚ :=
  m.upper_edge dim bin - m.lower_edge dim bin

/-- `AdaptiveMap2::Edges`. -/
def AdaptiveMap2.Edges (m : AdaptiveMap2) : List ℚ := m.m_hist

/-- `AdaptiveMap2::Bins`. -/
def AdaptiveMap2.Bins (m : AdaptiveMap2) : Nat := m.m_bins

/-- `AdaptiveMap2::Dims`. -/
def AdaptiveMap2.Dims (m : AdaptiveMap2) : Nat := m.m_dims

/-! ### Operations of the maps whose bodies are not among the provided
sources (only their declarations are); each is modelled from the
specification's words. -/

/-- Modelled from the spec: the serialization stream of the split-variant
map, "a binary/text stream containing, in order: dimension count, bin
count, then `dims*(bins+1)` edge values".  The bodies of
`AdaptiveMap2::Serialize`/`Deserialize` are not among the provided
sources. -/
structure MapStream where
  dims : Nat
  bins : Nat
  payload : List ℚ
deriving DecidableEq

/-- Modelled from the spec: `AdaptiveMap2::Serialize` writes the dims/bins
header followed by the flat edge sequence. -/
def AdaptiveMap2.Serialize (m : AdaptiveMap2) : MapStream :=
  ⟨m.m_dims, m.m_bins, m.m_hist⟩

/-- Modelled from the spec: `AdaptiveMap2::Deserialize` restores the map
from the stream and "must reject streams whose declared counts don't match
available data" with a `CorruptState` error surfaced to the caller. -/
def AdaptiveMap2.Deserialize (s : MapStream) : Except String AdaptiveMap2 :=
  if s.payload.length = s.dims * (s.bins + 1) then
    Except.ok ⟨s.payload, s.dims, s.bins⟩
  else Except.error "CorruptState"

/-- Modelled from the spec: the per-coordinate bin-interpolation rule of
the maps — continuous bin position `y = x*bins`, integer bin
`b = floor(y)`, fractional part `f = y - b`, mapped coordinate
`edges[b] + f*(edges[b+1]-edges[b])`, Jacobian factor
`bins*(edges[b+1]-edges[b])`.  The bodies of `AdaptiveMap2::operator()`
and `AdaptiveMap::Map` are not among the provided sources. -/
def AdaptiveMap2.mapCoord (m : AdaptiveMap2) (d : Nat) (x : ℚ) : ℚ × ℚ :=
  let y := x * (m.m_bins : ℚ)
  let b := (⌊y⌋).toNat
  let f := y - (b : ℚ)
  (m.lower_edge d b + f * (m.upper_edge d b - m.lower_edge d b),
   (m.m_bins : ℚ) * (m.upper_edge d b - m.lower_edge d b))

/-- Modelled from the spec: `AdaptiveMap2::operator()` applied from
dimension `d` onward: maps each remaining coordinate and accumulates the
Jacobian as the product of the per-dimension factors. -/
def AdaptiveMap2.mapPointFrom (m : AdaptiveMap2) : Nat → List ℚ → List ℚ × ℚ
  | _, [] => ([], 1)
  | d, x :: xs =>
    let c := m.mapCoord d x
    let r := m.mapPointFrom (d + 1) xs
    (c.1 :: r.1, c.2 * r.2)

/-- Modelled from the spec: `AdaptiveMap2::operator()` — the argument
vector is overwritten in place with the mapped coordinates (returned here
as the first component) and the scalar Jacobian is returned (second
component). -/
def AdaptiveMap2.mapPoint (m : AdaptiveMap2) (xs : List ℚ) : List ℚ × ℚ :=
  m.mapPointFrom 0 xs

/-- The `enum class AdaptiveMapSplit` of the header. -/
inductive AdaptiveMapSplit where
  | half
  | third
  | quarter
deriving DecidableEq

/-- Modelled from the spec: the interior points `Split` inserts into one
bin `[a, b]` — the midpoint for `half`, the points at 1/3 and 2/3 for
`third`, the three quartile points for `quarter`.  The body of
`AdaptiveMap2::Split` is not among the provided sources. -/
def interiorPoints (mode : AdaptiveMapSplit) (a b : ℚ) : List ℚ :=
  match mode with
  | .half => [(a + b) / 2]
  | .third => [a + (b - a) / 3, a + 2 * (b - a) / 3]
  | .quarter => [a + (b - a) / 4, a + (b - a) / 2, a + 3 * (b - a) / 4]

/-- The factor by which `Split` multiplies the bin count. -/
def splitFactor : AdaptiveMapSplit → Nat
  | .half => 2
  | .third => 3
  | .quarter => 4

/-- Modelled from the spec: `Split` on one dimension's edge list inserts
the mode's interior points inside every existing bin, preserving every
existing edge. -/
def splitEdges (mode : AdaptiveMapSplit) : List ℚ → List ℚ
  | [] => []
  | [a] => [a]
  | a :: b :: rest => (a :: interiorPoints mode a b) ++ splitEdges mode (b :: rest)

/-- The sub-slice of the flat edge array holding dimension `d`'s edges. -/
def AdaptiveMap2.dimEdges (m : AdaptiveMap2) (d : Nat) : List ℚ :=
  (m.m_hist.drop (d * (m.m_bins + 1))).take (m.m_bins + 1)

/-- Modelled from the spec: `AdaptiveMap2::Split` applies the per-bin
insertion in every dimension, multiplying the stored bin count. -/
def AdaptiveMap2.Split (m : AdaptiveMap2) (mode : AdaptiveMapSplit) : AdaptiveMap2 :=
  ⟨(List.range m.m_dims).flatMap (fun d => splitEdges mode (m.dimEdges d)),
   m.m_dims, m.m_bins * splitFactor mode⟩

/-- Monotone search for the bin whose half-open interval contains `x`:
the largest index `b` with `edges[b] ≤ x < edges[b+1]` on a sorted edge
list.  Used by the modelled `Adapt` operations ("locates the bin index per
dimension via search over edges"). -/
def findBin (x : ℚ) : List ℚ → Nat
  | [] => 0
  | [_] => 0
  | _ :: b :: rest => if x < b then 0 else 1 + findBin x (b :: rest)

/-- Modelled from the spec: `AdaptiveMap2::Adapt(rate, point)` on one
dimension — locate the bin containing the coordinate and nudge the bin's
upper edge toward the point by exponential smoothing
`edge = edge*(1-rate) + point*rate`, clamping (dropping the update) when
it would violate monotonicity.  The body of `AdaptiveMap2::Adapt` is not
among the provided sources. -/
def adaptDim (rate x : ℚ) (es : List ℚ) : List ℚ :=
  let b := findBin x es
  let enew := es.getD (b + 1) 0 * (1 - rate) + x * rate
  if es.getD b 0 < enew then es.set (b + 1) enew else es

/-- Modelled from the spec: `AdaptiveMap2::Adapt(rate, point)` applies the
single-sample nudge in every dimension. -/
def AdaptiveMap2.Adapt (m : AdaptiveMap2) (rate : ℚ) (point : List ℚ) : AdaptiveMap2 :=
  ⟨(List.range m.m_dims).flatMap
      (fun d => adaptDim rate (point.getD d 0) (m.dimEdges d)),
   m.m_dims, m.m_bins⟩

/-- Modelled from the spec: the uniform edge sequence produced by
`MakeUniform` and by the zero-importance fallback of `Adapt`. -/
def uniformEdges (n : Nat) : List ℚ :=
  (List.range (n + 1)).map (fun i : Nat => (i : ℚ) / (n : ℚ))

/-- Modelled from the spec: the neighbor smoothing of `AdaptiveMap::Adapt`
— each bin's importance is averaged with its two neighbors, edge bins with
their one neighbor.  The body of `AdaptiveMap::Adapt` is not among the
provided sources. -/
def smoothImportance (f : List ℚ) : List ℚ :=
  (List.range f.length).map (fun i =>
    if i = 0 then (f.getD 0 0 + f.getD 1 0) / 2
    else if i = f.length - 1 then (f.getD (i - 1) 0 + f.getD i 0) / 2
    else (f.getD (i - 1) 0 + f.getD i 0 + f.getD (i + 1) 0) / 3)

/-- Cumulative sums of the damped importance: entry `k` is the sum of the
first `k` per-bin weights. -/
def cumulWeights (w : List ℚ) : List ℚ :=
  (List.range (w.length + 1)).map (fun k => (w.take k).sum)

/-- Modelled from the spec: the monotone cumulative-sum inversion — the
point of the old grid at which the piecewise-linear cumulative importance
reaches the target `t`, interpolating linearly inside the located bin. -/
def invertCum (es cum : List ℚ) (t : ℚ) : ℚ :=
  let b := findBin t cum
  es.getD b 0 + (t - cum.getD b 0) / (cum.getD (b + 1) 0 - cum.getD b 0) *
    (es.getD (b + 1) 0 - es.getD b 0)

/-- Modelled from the spec: `AdaptiveMap::Adapt` on one dimension — smooth
the accumulated importance, damp it, and redistribute `nbins` new edges so
each new bin carries equal integrated smoothed importance; a dimension
whose total accumulated importance is zero falls back to uniform spacing.
The damping power `x ↦ x^dampening` is kept abstract as the function
`damp`, since a rational power of a rational is not exactly
representable; the monotonicity theorem assumes of it only that it maps
nonnegatives to nonnegatives and positives to positives, which holds of
the power function for `0 < dampening ≤ 1`. -/
def vegasAdaptDim (damp : ℚ → ℚ) (f es : List ℚ) (nbins : Nat) : List ℚ :=
  if f.sum = 0 then uniformEdges nbins
  else
    let s := smoothImportance f
    let w := s.map (fun r => damp (r / s.sum))
    let cum := cumulWeights w
    (List.range (nbins + 1)).map (fun k =>
      if k = 0 then 0
      else if k = nbins then 1
      else invertCum es cum ((k : ℚ) * w.sum / (nbins : ℚ)))

/-- State of the primary `AdaptiveMap`: the per-dimension grid and the
per-dimension, per-bin accumulated training statistics `sumF`. -/
structure AdaptiveMap where
  grid : List (List ℚ)
  sumF : List (List ℚ)

/-- Modelled from the spec: `AdaptiveMap::Adapt(dampening, nbins)`
recomputes every dimension's edges from the accumulated statistics and
resets the accumulators to zero. -/
def AdaptiveMap.Adapt (m : AdaptiveMap) (damp : ℚ → ℚ) (nbins : Nat) : AdaptiveMap :=
  ⟨(List.range m.grid.length).map
      (fun d => vegasAdaptDim damp (m.sumF.getD d []) (m.grid.getD d []) nbins),
   List.replicate m.grid.length (List.replicate nbins 0)⟩

/-! ### List bookkeeping lemmas for the constructor loops -/

lemma length_foldl_preserve {β : Type} (step : List ℚ → β → List ℚ)
    (h : ∀ a i, (step a i).length = a.length) :
    ∀ (is : List β) (l : List ℚ), (is.foldl step l).length = l.length := by
  intro is
  induction is with
  | nil => intro l; rfl
  | cons i is ih => intro l; rw [List.foldl_cons, ih, h]

lemma getD_set_eq_if (l : List ℚ) (i n : Nat) (a d : ℚ) :
    (l.set i a).getD n d = if i = n ∧ n < l.length then a else l.getD n d := by
  by_cases hn : n < l.length
  · rw [List.getD_eq_getElem _ _ (by simpa using hn), List.getElem_set]
    by_cases hin : i = n
    · rw [if_pos hin, if_pos ⟨hin, hn⟩]
    · rw [if_neg hin, if_neg (by tauto), List.getD_eq_getElem _ _ hn]
  · rw [List.getD_eq_default _ _ (by simpa using not_lt.mp hn),
      List.getD_eq_default _ _ (not_lt.mp hn), if_neg (by tauto)]

lemma getD_replicate_zero (k n : Nat) : (List.replicate k (0 : ℚ)).getD n 0 = 0 := by
  by_cases h : n < k
  · rw [List.getD_eq_getElem _ _ (by simpa using h), List.getElem_replicate]
  · rw [List.getD_eq_default _ _ (by simpa using not_lt.mp h)]

lemma getD_foldl_set_range (f : Nat → ℚ) :
    ∀ (m : Nat) (l : List ℚ) (n : Nat),
      ((List.range m).foldl (fun acc i => acc.set i (f i)) l).getD n 0 =
      if n < m ∧ n < l.length then f n else l.getD n 0 := by
  intro m
  induction m with
  | zero => intro l n; simp
  | succ m ih =>
    intro l n
    rw [List.range_succ, List.foldl_append, List.foldl_cons, List.foldl_nil,
      getD_set_eq_if,
      length_foldl_preserve _ (fun a i => List.length_set a i _) _ l, ih l n]
    split_ifs with h1 h2 h3
    · exact congrArg f h1.1
    · omega
    · rfl
    · omega
    · omega
    · rfl

lemma getD_foldl_copy (off : Nat) :
    ∀ (m : Nat) (l : List ℚ) (n : Nat), m ≤ off →
      ((List.range m).foldl (fun a j => a.set (off + j) (a.getD j 0)) l).getD n 0 =
      if off ≤ n ∧ n < off + m ∧ n < l.length then l.getD (n - off) 0 else l.getD n 0 := by
  intro m
  induction m with
  | zero => intro l n _; rw [if_neg (by omega)]; rfl
  | succ m ih =>
    intro l n hm
    have hv : (List.foldl (fun a j => a.set (off + j) (a.getD j 0)) l
        (List.range m)).getD m 0 = l.getD m 0 := by
      rw [ih l m (by omega), if_neg (by omega)]
    rw [List.range_succ, List.foldl_append, List.foldl_cons, List.foldl_nil,
      getD_set_eq_if,
      length_foldl_preserve _ (fun a i => List.length_set a _ _) _ l,
      hv, ih l n (by omega)]
    split_ifs with h1 h2 h3
    · exact congrArg (fun k => l.getD k 0) (by omega)
    · omega
    · rfl
    · omega
    · omega
    · rfl

lemma construct_bins (dims bins : Nat) : (AdaptiveMap2.construct dims bins).m_bins = bins := rfl

lemma construct_dims (dims bins : Nat) : (AdaptiveMap2.construct dims bins).m_dims = dims := rfl

lemma construct_length (dims bins : Nat) :
    (AdaptiveMap2.construct dims bins).m_hist.length = dims * (bins + 1) := by
  simp only [AdaptiveMap2.construct]
  rw [length_foldl_preserve, length_foldl_preserve, List.length_replicate]
  · exact fun a i => List.length_set a i _
  · intro a i
    exact length_foldl_preserve _ (fun b j => List.length_set b _ _) _ a

/-- Pointwise value of the constructor's edge array: entry `n` of `m_hist`
is `(n mod (bins+1)) / bins` for `n` in range, the uniform grid repeated
in every dimension's block. -/
lemma construct_getD (dims bins : Nat) (hdims : 1 ≤ dims) (n : Nat) :
    (AdaptiveMap2.construct dims bins).m_hist.getD n 0 =
      if n < dims * (bins + 1) then ((n % (bins + 1) : Nat) : ℚ) / (bins : ℚ) else 0 := by
  have hB : bins + 1 ≤ dims * (bins + 1) := Nat.le_mul_of_pos_left _ hdims
  have hh1 : ∀ k, ((List.range (bins + 1)).foldl
      (fun acc i => acc.set i ((i : ℚ) / (bins : ℚ)))
      (List.replicate (dims * (bins + 1)) 0)).getD k 0 =
      if k < bins + 1 then (k : ℚ) / (bins : ℚ) else 0 := by
    intro k
    rw [getD_foldl_set_range, List.length_replicate, getD_replicate_zero]
    split_ifs <;> first | rfl | omega
  have hh1len : ((List.range (bins + 1)).foldl
      (fun acc i => acc.set i ((i : ℚ) / (bins : ℚ)))
      (List.replicate (dims * (bins + 1)) 0)).length = dims * (bins + 1) := by
    rw [length_foldl_preserve _ (fun a i => List.length_set a i _), List.length_replicate]
  have inv : ∀ t, t + 1 ≤ dims → ∀ k,
      ((List.range' 1 t).foldl
        (fun acc i => (List.range (bins + 1)).foldl
          (fun a j => a.set (i * (bins + 1) + j) (a.getD j 0)) acc)
        ((List.range (bins + 1)).foldl
          (fun acc i => acc.set i ((i : ℚ) / (bins : ℚ)))
          (List.replicate (dims * (bins + 1)) 0))).getD k 0 =
      if k < (t + 1) * (bins + 1) then ((k % (bins + 1) : Nat) : ℚ) / (bins : ℚ) else 0 := by
    intro t
    induction t with
    | zero =>
      intro _ k
      rw [show List.range' 1 0 = ([] : List Nat) from rfl, List.foldl_nil, hh1 k,
        show (0 + 1) * (bins + 1) = bins + 1 from by ring]
      split_ifs with h
      · rw [Nat.mod_eq_of_lt h]
      · rfl
    | succ t ih =>
      intro ht k
      rw [List.range'_concat]
      rw [List.foldl_append, List.foldl_cons, List.foldl_nil]
      have hfact : bins + 1 ≤ (1 + 1 * t) * (bins + 1) := Nat.le_mul_of_pos_left _ (by omega)
      rw [getD_foldl_copy ((1 + 1 * t) * (bins + 1)) (bins + 1) _ k hfact]
      have hPlen : ((List.range' 1 t).foldl
          (fun acc i => (List.range (bins + 1)).foldl
            (fun a j => a.set (i * (bins + 1) + j) (a.getD j 0)) acc)
          ((List.range (bins + 1)).foldl
            (fun acc i => acc.set i ((i : ℚ) / (bins : ℚ)))
            (List.replicate (dims * (bins + 1)) 0))).length = dims * (bins + 1) := by
        rw [length_foldl_preserve, hh1len]
        intro a i
        exact length_foldl_preserve _ (fun b j => List.length_set b _ _) _ a
      rw [hPlen, ih (by omega) (k - (1 + 1 * t) * (bins + 1)), ih (by omega) k]
      have hoff : (1 + 1 * t) * (bins + 1) = (t + 1) * (bins + 1) := by ring
      have hstep : (t + 1 + 1) * (bins + 1) = (t + 1) * (bins + 1) + (bins + 1) := by ring
      have hle : (t + 1 + 1) * (bins + 1) ≤ dims * (bins + 1) :=
        Nat.mul_le_mul_right _ (by omega)
      rw [hoff] at *
      have hfact2 : bins + 1 ≤ (t + 1) * (bins + 1) := Nat.le_mul_of_pos_left _ (by omega)
      split_ifs with h1 h2 h3 h4 h5
      · have hr : k - (t + 1) * (bins + 1) < bins + 1 := by omega
        have hkk : k = (k - (t + 1) * (bins + 1)) + (t + 1) * (bins + 1) := by omega
        have hk : k % (bins + 1) = k - (t + 1) * (bins + 1) := by
          conv_lhs => rw [hkk]
          rw [Nat.add_mul_mod_self_right, Nat.mod_eq_of_lt hr]
        have hr2 : (k - (t + 1) * (bins + 1)) % (bins + 1) = k - (t + 1) * (bins + 1) :=
          Nat.mod_eq_of_lt hr
        rw [hk, hr2]
      all_goals first | rfl | omega
  simp only [AdaptiveMap2.construct]
  have hfin := inv (dims - 1) (by omega) n
  rw [show dims - 1 + 1 = dims from by omega] at hfin
  exact hfin

/-- Every in-range edge of the freshly constructed map is uniform. -/
lemma construct_lower_edge (dims bins d j : Nat) (hdims : 1 ≤ dims)
    (hd : d < dims) (hj : j ≤ bins) :
    (AdaptiveMap2.construct dims bins).lower_edge d j = (j : ℚ) / (bins : ℚ) := by
  have hidx : d * (bins + 1) + j < dims * (bins + 1) := by
    calc d * (bins + 1) + j < d * (bins + 1) + (bins + 1) := by omega
      _ = (d + 1) * (bins + 1) := by ring
      _ ≤ dims * (bins + 1) := Nat.mul_le_mul_right _ (by omega)
  have hmod : (d * (bins + 1) + j) % (bins + 1) = j := by
    rw [Nat.add_comm, Nat.add_mul_mod_self_right, Nat.mod_eq_of_lt (by omega)]
  rw [AdaptiveMap2.lower_edge, construct_bins, construct_getD dims bins hdims,
    if_pos hidx, hmod]

end Achilles

namespace Achilles

/-- C1: after `AdaptiveMap2(dims, bins)` with `dims ≥ 1`, `bins ≥ 1`, every
dimension `d < dims` stores the same uniform edge sequence: edge `i` equals
`i/bins`, edges are strictly increasing, the first edge is `0`, the last
edge is `1`, and every consecutive difference equals `1/bins`. -/
theorem construct_uniform_edges (dims bins d i : Nat)
    (hdims : 1 ≤ dims) (hbins : 1 ≤ bins) (hd : d < dims) (hi : i ≤ bins) :
    (AdaptiveMap2.construct dims bins).lower_edge d i = (i : ℚ) / (bins : ℚ) ∧
    (AdaptiveMap2.construct dims bins).lower_edge d i =
      (AdaptiveMap2.construct dims bins).lower_edge 0 i ∧
    (i < bins → (AdaptiveMap2.construct dims bins).lower_edge d i <
      (AdaptiveMap2.construct dims bins).lower_edge d (i + 1)) ∧
    (AdaptiveMap2.construct dims bins).lower_edge d 0 = 0 ∧
    (AdaptiveMap2.construct dims bins).lower_edge d bins = 1 ∧
    (i < bins → (AdaptiveMap2.construct dims bins).lower_edge d (i + 1) -
      (AdaptiveMap2.construct dims bins).lower_edge d i = 1 / (bins : ℚ)) := by
  have hbq : (0 : ℚ) < (bins : ℚ) := by exact_mod_cast hbins
  have key : ∀ d' j, d' < dims → j ≤ bins →
      (AdaptiveMap2.construct dims bins).lower_edge d' j = (j : ℚ) / (bins : ℚ) :=
    fun d' j hd' hj => construct_lower_edge dims bins d' j hdims hd' hj
  refine ⟨key d i hd hi, ?_, ?_, ?_, ?_, ?_⟩
  · rw [key d i hd hi, key 0 i (by omega) hi]
  · intro hlt
    rw [key d i hd hi, key d (i + 1) hd (by omega)]
    have : (i : ℚ) < ((i + 1 : Nat) : ℚ) := by push_cast; linarith
    exact div_lt_div_of_pos_right this hbq
  · rw [key d 0 hd (by omega)]
    simp
  · rw [key d bins hd le_rfl]
    exact div_self (ne_of_gt hbq)
  · intro hlt
    rw [key d i hd hi, key d (i + 1) hd (by omega)]
    push_cast
    field_simp

/-- Witness for C1 at `dims = 2`, `bins = 3`, `d = 1`, `i = 1`. -/
theorem construct_uniform_edges_witness :
    1 < 2 ∧ 1 ≤ 3 ∧ (AdaptiveMap2.construct 2 3).lower_edge 1 1 = (1 : ℚ) / 3 :=
  ⟨by norm_num, by norm_num,
    (construct_uniform_edges 2 3 1 1 (by norm_num) (by norm_num) (by norm_num)
      (by norm_num)).1⟩

/-- C7 (amended): under the precondition `dim < dims`, `bin < bins` the flat
accessors read indices strictly below `dims*(bins+1)`, the default branch of
the total embedding is unreachable (the read is independent of the supplied
default), and `width = upper_edge - lower_edge`; for `bin ≥ bins` the access
is not guaranteed in bounds: at `dim = dims-1`, `bin = bins` the upper-edge
index reaches `dims*(bins+1)`, one past the last stored edge. -/
theorem edge_accessors_bounds (m : AdaptiveMap2) (d b : Nat)
    (hlen : m.m_hist.length = m.m_dims * (m.m_bins + 1))
    (hd : d < m.m_dims) (hb : b < m.m_bins) :
    m.lowerIndex d b < m.m_dims * (m.m_bins + 1) ∧
    m.upperIndex d b < m.m_dims * (m.m_bins + 1) ∧
    (∀ q : ℚ, m.m_hist.getD (m.lowerIndex d b) q = m.lower_edge d b) ∧
    (∀ q : ℚ, m.m_hist.getD (m.upperIndex d b) q = m.upper_edge d b) ∧
    m.width d b = m.upper_edge d b - m.lower_edge d b ∧
    m.m_dims * (m.m_bins + 1) ≤ m.upperIndex (m.m_dims - 1) m.m_bins := by
  have hup : m.upperIndex d b < m.m_dims * (m.m_bins + 1) := by
    rw [AdaptiveMap2.upperIndex]
    calc d * (m.m_bins + 1) + b + 1 < d * (m.m_bins + 1) + (m.m_bins + 1) := by omega
      _ = (d + 1) * (m.m_bins + 1) := by ring
      _ ≤ m.m_dims * (m.m_bins + 1) := Nat.mul_le_mul_right _ (by omega)
  have hlo : m.lowerIndex d b < m.m_dims * (m.m_bins + 1) := by
    have := hup
    rw [AdaptiveMap2.upperIndex] at this
    rw [AdaptiveMap2.lowerIndex]
    omega
  refine ⟨hlo, hup, ?_, ?_, rfl, ?_⟩
  · intro q
    rw [AdaptiveMap2.lower_edge, AdaptiveMap2.lowerIndex,
      List.getD_eq_getElem _ _ (by rw [hlen]; rw [AdaptiveMap2.lowerIndex] at hlo; exact hlo),
      List.getD_eq_getElem _ _ (by rw [hlen]; rw [AdaptiveMap2.lowerIndex] at hlo; exact hlo)]
  · intro q
    rw [AdaptiveMap2.upper_edge, AdaptiveMap2.upperIndex,
      List.getD_eq_getElem _ _ (by rw [hlen]; rw [AdaptiveMap2.upperIndex] at hup; exact hup),
      List.getD_eq_getElem _ _ (by rw [hlen]; rw [AdaptiveMap2.upperIndex] at hup; exact hup)]
  · rw [AdaptiveMap2.upperIndex]
    have h1 : m.m_dims - 1 + 1 = m.m_dims := by omega
    calc m.m_dims * (m.m_bins + 1) = (m.m_dims - 1 + 1) * (m.m_bins + 1) := by rw [h1]
      _ = (m.m_dims - 1) * (m.m_bins + 1) + (m.m_bins + 1) := by ring
      _ = (m.m_dims - 1) * (m.m_bins + 1) + m.m_bins + 1 := by omega
      _ ≤ (m.m_dims - 1) * (m.m_bins + 1) + m.m_bins + 1 := le_rfl

/-- Counterexample to C7 as stated: on `AdaptiveMap2(2, 2)` the accesses at
`bin = 2 = bins` are not out of bounds — both indices stay below the edge
array's length, and `lower_edge(0, bins)` returns the genuine last edge `1`. -/
theorem edge_accessor_bin_ge_bins_in_bounds :
    (AdaptiveMap2.construct 2 2).m_bins ≤ 2 ∧
    (AdaptiveMap2.construct 2 2).lowerIndex 0 2 <
      (AdaptiveMap2.construct 2 2).m_hist.length ∧
    (AdaptiveMap2.construct 2 2).upperIndex 0 2 <
      (AdaptiveMap2.construct 2 2).m_hist.length ∧
    (AdaptiveMap2.construct 2 2).lower_edge 0 2 = 1 := by
  refine ⟨by decide, by decide, by decide, ?_⟩
  simp [AdaptiveMap2.construct, AdaptiveMap2.lower_edge, List.range_succ, List.range'_concat,
    List.replicate_succ]

/-- Witness for C7's amended theorem at `AdaptiveMap2(2, 2)`, `dim = 0`,
`bin = 1`. -/
theorem edge_accessors_bounds_witness :
    (0 : Nat) < 2 ∧ (1 : Nat) < 2 ∧
    (AdaptiveMap2.construct 2 2).width 0 1 =
      (AdaptiveMap2.construct 2 2).upper_edge 0 1 -
      (AdaptiveMap2.construct 2 2).lower_edge 0 1 :=
  ⟨by norm_num, by norm_num,
    (edge_accessors_bounds (AdaptiveMap2.construct 2 2) 0 1 (by decide) (by decide)
      (by decide)).2.2.2.2.1⟩

lemma interiorPoints_length (mode : AdaptiveMapSplit) (a b : ℚ) :
    (interiorPoints mode a b).length = splitFactor mode - 1 := by
  cases mode <;> rfl

lemma splitEdges_length (mode : AdaptiveMapSplit) :
    ∀ es : List ℚ, es ≠ [] →
      (splitEdges mode es).length = (es.length - 1) * splitFactor mode + 1 := by
  intro es
  induction es with
  | nil => intro h; exact absurd rfl h
  | cons a tail ih =>
    intro _
    cases tail with
    | nil => simp [splitEdges]
    | cons b rest =>
      rw [splitEdges, List.length_append, List.length_cons, interiorPoints_length,
        ih (by simp)]
      have hk : 1 ≤ splitFactor mode := by cases mode <;> decide
      simp only [List.length_cons]
      rw [show rest.length + 1 - 1 = rest.length from by omega,
        show rest.length + 1 + 1 - 1 = rest.length + 1 from by omega]
      have e3 : (rest.length + 1) * splitFactor mode =
          rest.length * splitFactor mode + splitFactor mode := by ring
      omega

lemma flatMap_length_const (g : Nat → List ℚ) (s : Nat) :
    ∀ n : Nat, (∀ d < n, (g d).length = s) →
      ((List.range n).flatMap g).length = n * s := by
  intro n
  induction n with
  | zero => intro _; simp
  | succ n ih =>
    intro hg
    rw [List.range_succ, List.flatMap_append, List.length_append,
      ih (fun d hd => hg d (by omega))]
    simp only [List.flatMap_cons, List.flatMap_nil, List.append_nil]
    rw [hg n (by omega)]
    ring

lemma flatMap_slice (g : Nat → List ℚ) (s : Nat) :
    ∀ n : Nat, (∀ d < n, (g d).length = s) →
      ∀ d < n, (((List.range n).flatMap g).drop (d * s)).take s = g d := by
  intro n
  induction n with
  | zero => intro _ d hd; omega
  | succ n ih =>
    intro hg d hd
    rw [List.range_succ, List.flatMap_append]
    simp only [List.flatMap_cons, List.flatMap_nil, List.append_nil]
    have hlenA : ((List.range n).flatMap g).length = n * s :=
      flatMap_length_const g s n (fun d' hd' => hg d' (by omega))
    by_cases hdn : d < n
    · have hds : d * s ≤ n * s := Nat.mul_le_mul_right _ (by omega)
      rw [List.drop_append_of_le_length (by omega)]
      have hdrop_len : (((List.range n).flatMap g).drop (d * s)).length = n * s - d * s := by
        rw [List.length_drop, hlenA]
      have hd1s : (d + 1) * s ≤ n * s := Nat.mul_le_mul_right _ (by omega)
      have hsle : s ≤ (((List.range n).flatMap g).drop (d * s)).length := by
        rw [hdrop_len]
        have : (d + 1) * s = d * s + s := by ring
        omega
      rw [List.take_append_of_le_length hsle]
      exact ih (fun d' hd' => hg d' (by omega)) d hdn
    · have hdn' : d = n := by omega
      subst hdn'
      rw [List.drop_append_of_le_length (by omega)]
      have : ((List.range d).flatMap g).drop (d * s) = [] := by
        apply List.drop_eq_nil_of_le
        omega
      rw [this, List.nil_append]
      have hgd : (g d).length = s := hg d (by omega)
      rw [← hgd, List.take_length]

lemma dimEdges_length (m : AdaptiveMap2)
    (hlen : m.m_hist.length = m.m_dims * (m.m_bins + 1))
    (d : Nat) (hd : d < m.m_dims) :
    (m.dimEdges d).length = m.m_bins + 1 := by
  rw [AdaptiveMap2.dimEdges, List.length_take, List.length_drop, hlen]
  have h1 : (d + 1) * (m.m_bins + 1) ≤ m.m_dims * (m.m_bins + 1) :=
    Nat.mul_le_mul_right _ (by omega)
  have h2 : (d + 1) * (m.m_bins + 1) = d * (m.m_bins + 1) + (m.m_bins + 1) := by ring
  omega

lemma split_bins (m : AdaptiveMap2) (mode : AdaptiveMapSplit) :
    (m.Split mode).m_bins = m.m_bins * splitFactor mode := rfl

lemma split_dims (m : AdaptiveMap2) (mode : AdaptiveMapSplit) :
    (m.Split mode).m_dims = m.m_dims := rfl

lemma split_dimEdges (m : AdaptiveMap2) (mode : AdaptiveMapSplit)
    (hlen : m.m_hist.length = m.m_dims * (m.m_bins + 1))
    (d : Nat) (hd : d < m.m_dims) :
    (m.Split mode).dimEdges d = splitEdges mode (m.dimEdges d) := by
  have hblock : ∀ d' < m.m_dims,
      (splitEdges mode (m.dimEdges d')).length = m.m_bins * splitFactor mode + 1 := by
    intro d' hd'
    have hne : m.dimEdges d' ≠ [] := by
      have := dimEdges_length m hlen d' hd'
      intro hcon
      rw [hcon] at this
      simp at this
    rw [splitEdges_length mode _ hne, dimEdges_length m hlen d' hd']
    simp
  show ((((List.range m.m_dims).flatMap
      (fun d' => splitEdges mode (m.dimEdges d'))).drop
        (d * (m.m_bins * splitFactor mode + 1))).take
        (m.m_bins * splitFactor mode + 1)) = _
  exact flatMap_slice _ _ m.m_dims hblock d hd

lemma splitEdges_subset (mode : AdaptiveMapSplit) :
    ∀ es : List ℚ, ∀ x ∈ es, x ∈ splitEdges mode es := by
  intro es
  induction es with
  | nil => intro x hx; exact absurd hx (List.not_mem_nil x)
  | cons a tail ih =>
    cases tail with
    | nil => intro x hx; simpa [splitEdges] using hx
    | cons b rest =>
      intro x hx
      rw [splitEdges, List.mem_append]
      rcases List.mem_cons.mp hx with h | h
      · exact Or.inl (by simp [h])
      · exact Or.inr (ih x h)

lemma splitEdges_getD (mode : AdaptiveMapSplit) :
    ∀ es : List ℚ, ∀ j r : Nat, j + 1 < es.length → r < splitFactor mode →
      (splitEdges mode es).getD (j * splitFactor mode + r) 0 =
        es.getD j 0 + (r : ℚ) * (es.getD (j + 1) 0 - es.getD j 0) /
          (splitFactor mode : ℚ) := by
  intro es
  induction es with
  | nil => intro j r h _; simp at h
  | cons a tail ih =>
    cases tail with
    | nil => intro j r h _; simp at h
    | cons b rest =>
      intro j r hj hr
      rw [splitEdges]
      match j with
      | 0 =>
        simp only [Nat.zero_mul, Nat.zero_add]
        have hlenblock : (a :: interiorPoints mode a b).length = splitFactor mode := by
          rw [List.length_cons, interiorPoints_length]
          cases mode <;> decide
        rw [List.getD_append _ _ _ _ (by rw [hlenblock]; exact hr)]
        simp only [List.getD_cons_zero, List.getD_cons_succ]
        cases mode <;>
          (simp only [splitFactor] at hr
           interval_cases r <;>
             (simp [interiorPoints, splitFactor]
              try ring))
      | j' + 1 =>
        have hlenblock : (a :: interiorPoints mode a b).length = splitFactor mode := by
          rw [List.length_cons, interiorPoints_length]
          cases mode <;> decide
        have hidx : (j' + 1) * splitFactor mode + r =
            (a :: interiorPoints mode a b).length + (j' * splitFactor mode + r) := by
          rw [hlenblock]
          ring
        rw [hidx, List.getD_append_right _ _ _ _ (by omega)]
        have : (a :: interiorPoints mode a b).length + (j' * splitFactor mode + r) -
            (a :: interiorPoints mode a b).length = j' * splitFactor mode + r := by omega
        rw [this]
        simp only [List.getD_cons_succ]
        exact ih j' r (by simpa using hj) hr

lemma splitEdges_getLast? (mode : AdaptiveMapSplit) :
    ∀ es : List ℚ, (splitEdges mode es).getLast? = es.getLast? := by
  intro es
  induction es with
  | nil => rfl
  | cons a tail ih =>
    cases tail with
    | nil => rfl
    | cons b rest =>
      rw [splitEdges, List.getLast?_append, ih, List.getLast?_cons_cons]
      cases hh : (b :: rest).getLast? with
      | none =>
        have hs : (b :: rest).getLast?.isSome := List.getLast?_isSome.mpr (by simp)
        rw [hh] at hs
        simp at hs
      | some v => rfl
lemma findBin_le (x : ℚ) : ∀ c : List ℚ, c.getD 0 0 ≤ x → c.getD (findBin x c) 0 ≤ x := by
  intro c
  induction c with
  | nil => intro h; exact h
  | cons a tail ih =>
    cases tail with
    | nil => intro h; exact h
    | cons b rest =>
      intro h
      rw [findBin]
      split_ifs with hxb
      · exact h
      · rw [show 1 + findBin x (b :: rest) = findBin x (b :: rest) + 1 from by omega,
          List.getD_cons_succ]
        exact ih (le_of_not_lt hxb)

lemma findBin_lt (x : ℚ) : ∀ c : List ℚ, 2 ≤ c.length →
    x < c.getD (c.length - 1) 0 →
    x < c.getD (findBin x c + 1) 0 ∧ findBin x c + 1 < c.length := by
  intro c
  induction c with
  | nil => intro h; simp at h
  | cons a tail ih =>
    cases tail with
    | nil => intro h; simp at h
    | cons b rest =>
      intro _ hlast
      rw [findBin]
      split_ifs with hxb
      · refine ⟨by simpa using hxb, ?_⟩
        simp only [List.length_cons]
        omega
      · cases rest with
        | nil =>
          exfalso
          have hb : x < b := by simpa using hlast
          exact hxb hb
        | cons c2 rest2 =>
          have hrec := ih (by simp) (by
            simp only [List.length_cons] at hlast ⊢
            rw [show rest2.length + 1 + 1 + 1 - 1 = rest2.length + 1 + 1 from by omega]
              at hlast
            rw [show rest2.length + 1 + 1 - 1 = rest2.length + 1 from by omega]
            simpa using hlast)
          constructor
          · rw [show 1 + findBin x (b :: c2 :: rest2) + 1 =
              (findBin x (b :: c2 :: rest2) + 1) + 1 from by omega, List.getD_cons_succ]
            exact hrec.1
          · simp only [List.length_cons] at hrec ⊢
            omega

lemma findBin_mono (x y : ℚ) (hxy : x ≤ y) : ∀ c : List ℚ, findBin x c ≤ findBin y c := by
  intro c
  induction c with
  | nil => exact le_rfl
  | cons a tail ih =>
    cases tail with
    | nil => exact le_rfl
    | cons b rest =>
      rw [findBin, findBin]
      split_ifs with h1 h2 h2
      · exact le_rfl
      · omega
      · exact absurd (lt_of_le_of_lt hxy h2) h1
      · have := ih
        omega

lemma chain'_getD_lt (l : List ℚ) (hl : List.Chain' (· < ·) l) (i : Nat)
    (hi : i + 1 < l.length) : l.getD i 0 < l.getD (i + 1) 0 := by
  rw [List.chain'_iff_get] at hl
  have := hl i (by omega)
  rw [List.getD_eq_getElem _ _ (by omega), List.getD_eq_getElem _ _ hi]
  simpa [List.get_eq_getElem] using this

lemma chain'_getD_mono (l : List ℚ) (hl : List.Chain' (· < ·) l) (i j : Nat)
    (hij : i ≤ j) (hj : j < l.length) : l.getD i 0 ≤ l.getD j 0 := by
  rcases eq_or_lt_of_le hij with h | h
  · rw [h]
  · rw [List.chain'_iff_pairwise, List.pairwise_iff_get] at hl
    have := hl ⟨i, by omega⟩ ⟨j, hj⟩ h
    rw [List.getD_eq_getElem _ _ (by omega), List.getD_eq_getElem _ _ hj]
    exact le_of_lt (by simpa [List.get_eq_getElem] using this)

lemma chain'_set (l : List ℚ) (i : Nat) (v : ℚ) (hl : List.Chain' (· < ·) l)
    (hlo : 0 < i → i < l.length → l.getD (i - 1) 0 < v)
    (hhi : i + 1 < l.length → v < l.getD (i + 1) 0) :
    List.Chain' (· < ·) (l.set i v) := by
  rw [List.chain'_iff_get] at hl ⊢
  intro p hp
  rw [List.length_set] at hp
  have hp1 : p + 1 < l.length := by omega
  simp only [List.get_eq_getElem, List.getElem_set]
  split_ifs with he1 he2 he2
  · omega
  · subst he1
    have := hhi (by omega)
    rw [List.getD_eq_getElem _ _ hp1] at this
    exact this
  · subst he2
    have := hlo (by omega) (by omega)
    rw [show p + 1 - 1 = p from by omega] at this
    rw [List.getD_eq_getElem _ _ (by omega : p < l.length)] at this
    exact this
  · have := hl p (by omega)
    simpa [List.get_eq_getElem] using this

lemma adaptDim_chain (rate x : ℚ) (es : List ℚ)
    (hr0 : 0 < rate) (hr1 : rate ≤ 1)
    (hx0 : 0 ≤ x) (hx1 : x < 1)
    (hes : List.Chain' (· < ·) es)
    (h0 : es.getD 0 0 = 0) (hlast : es.getD (es.length - 1) 0 = 1)
    (hlen2 : 2 ≤ es.length) :
    List.Chain' (· < ·) (adaptDim rate x es) := by
  have hble := findBin_le x es (by rw [h0]; exact hx0)
  have hblt := findBin_lt x es hlen2 (by rw [hlast]; exact hx1)
  rw [adaptDim]
  set b := findBin x es with hbdef
  set enew := es.getD (b + 1) 0 * (1 - rate) + x * rate with hedef
  have henew_lt : enew < es.getD (b + 1) 0 := by
    have hpos := mul_pos hr0 (sub_pos.mpr hblt.1)
    rw [hedef]
    nlinarith
  split_ifs with hg
  · apply chain'_set es (b + 1) enew hes
    · intro _ _
      rw [show b + 1 - 1 = b from by omega]
      exact hg
    · intro hb2
      calc enew < es.getD (b + 1) 0 := henew_lt
        _ < es.getD (b + 1 + 1) 0 := chain'_getD_lt es hes (b + 1) hb2
  · exact hes

lemma interiorPoints_chain (mode : AdaptiveMapSplit) (a b : ℚ) (hab : a < b) :
    List.Chain' (· < ·) (a :: interiorPoints mode a b) ∧
    ∀ y ∈ (a :: interiorPoints mode a b).getLast?, y < b := by
  cases mode
  case half =>
    constructor
    · simp [interiorPoints, List.chain'_cons]
      linarith
    · intro y hy
      simp [interiorPoints] at hy
      subst hy
      linarith
  case third =>
    constructor
    · simp [interiorPoints, List.chain'_cons]
      constructor <;> linarith
    · intro y hy
      simp [interiorPoints] at hy
      subst hy
      linarith
  case quarter =>
    constructor
    · simp [interiorPoints, List.chain'_cons]
      refine ⟨by linarith, by linarith, by linarith⟩
    · intro y hy
      simp [interiorPoints] at hy
      subst hy
      linarith

lemma splitEdges_head (mode : AdaptiveMapSplit) (b : ℚ) (rest : List ℚ) :
    (splitEdges mode (b :: rest)).head? = some b := by
  cases rest <;> cases mode <;> rfl

lemma splitEdges_chain (mode : AdaptiveMapSplit) :
    ∀ es : List ℚ, List.Chain' (· < ·) es →
      List.Chain' (· < ·) (splitEdges mode es) := by
  intro es
  induction es with
  | nil => intro _; exact List.chain'_nil
  | cons a tail ih =>
    cases tail with
    | nil => intro _; simp [splitEdges]
    | cons b rest =>
      intro hch
      have hab : a < b := (List.chain'_cons.mp hch).1
      have hrest : List.Chain' (· < ·) (b :: rest) := (List.chain'_cons.mp hch).2
      rw [splitEdges, List.chain'_append]
      obtain ⟨hc1, hc2⟩ := interiorPoints_chain mode a b hab
      refine ⟨hc1, ih hrest, ?_⟩
      intro y hy z hz
      rw [splitEdges_head mode b rest] at hz
      have hzb : b = z := by simpa using hz
      rw [← hzb]
      exact hc2 y hy
lemma getD_map_range' {α : Type} (g : Nat → α) (dflt : α) (m k : Nat) :
    ((List.range m).map g).getD k dflt = if k < m then g k else dflt := by
  by_cases h : k < m
  · rw [List.getD_eq_getElem _ _ (by simpa using h), List.getElem_map,
      List.getElem_range, if_pos h]
  · rw [List.getD_eq_default _ _ (by simpa using not_lt.mp h), if_neg h]

lemma getD_nonneg (l : List ℚ) (h : ∀ y ∈ l, 0 ≤ y) (k : Nat) : 0 ≤ l.getD k 0 := by
  by_cases hk : k < l.length
  · rw [List.getD_eq_getElem _ _ hk]
    exact h _ (List.getElem_mem hk)
  · rw [List.getD_eq_default _ _ (by omega)]

lemma chain'_of_getD (l : List ℚ)
    (h : ∀ i, i + 1 < l.length → l.getD i 0 < l.getD (i + 1) 0) :
    List.Chain' (· < ·) l := by
  rw [List.chain'_iff_get]
  intro i hi
  have h1 := h i (by omega)
  rw [List.getD_eq_getElem _ _ (by omega), List.getD_eq_getElem _ _ (by omega)] at h1
  simpa [List.get_eq_getElem] using h1

lemma uniformEdges_chain (n : Nat) (hn : 1 ≤ n) :
    List.Chain' (· < ·) (uniformEdges n) := by
  apply chain'_of_getD
  intro i hi
  rw [uniformEdges, List.length_map, List.length_range] at hi
  rw [uniformEdges, getD_map_range', getD_map_range', if_pos (by omega),
    if_pos (by omega)]
  have hq : (0 : ℚ) < (n : ℚ) := by exact_mod_cast hn
  apply div_lt_div_of_pos_right _ hq
  exact_mod_cast Nat.lt_succ_self i

lemma exists_pos_getD_of_sum_ne (f : List ℚ) (hf : ∀ y ∈ f, 0 ≤ y) (hsum : f.sum ≠ 0) :
    ∃ j, j < f.length ∧ 0 < f.getD j 0 := by
  have hex : ∃ y ∈ f, 0 < y := by
    by_contra h
    push_neg at h
    exact hsum (List.sum_eq_zero (fun y hy => le_antisymm (h y hy) (hf y hy)))
  obtain ⟨y, hymem, hypos⟩ := hex
  obtain ⟨j, hj, hjy⟩ := List.getElem_of_mem hymem
  exact ⟨j, hj, by rw [List.getD_eq_getElem _ _ hj, hjy]; exact hypos⟩

lemma sum_pos_of_mem (l : List ℚ) (hnn : ∀ y ∈ l, 0 ≤ y) (j : Nat) (hj : j < l.length)
    (hp : 0 < l.getD j 0) : 0 < l.sum := by
  have hmem : l.getD j 0 ∈ l := by
    rw [List.getD_eq_getElem _ _ hj]
    exact List.getElem_mem hj
  have := List.single_le_sum hnn _ hmem
  linarith

lemma smooth_length (f : List ℚ) : (smoothImportance f).length = f.length := by
  rw [smoothImportance, List.length_map, List.length_range]

lemma smooth_nonneg (f : List ℚ) (hf : ∀ z ∈ f, 0 ≤ z) :
    ∀ y ∈ smoothImportance f, 0 ≤ y := by
  intro y hy
  rw [smoothImportance] at hy
  obtain ⟨i, _, rfl⟩ := List.mem_map.mp hy
  have h := getD_nonneg f hf
  split_ifs <;> linarith [h 0, h 1, h (i - 1), h i, h (i + 1)]

lemma smooth_pos_at (f : List ℚ) (hf : ∀ z ∈ f, 0 ≤ z) (j : Nat) (hj : j < f.length)
    (hjpos : 0 < f.getD j 0) : 0 < (smoothImportance f).getD j 0 := by
  rw [smoothImportance, getD_map_range', if_pos hj]
  have h := getD_nonneg f hf
  split_ifs with h1 h2
  · subst h1
    linarith [h 1]
  · linarith [h (j - 1)]
  · linarith [h (j - 1), h (j + 1)]

lemma cumul_length (w : List ℚ) : (cumulWeights w).length = w.length + 1 := by
  rw [cumulWeights, List.length_map, List.length_range]

lemma cumul_getD (w : List ℚ) (k : Nat) (hk : k ≤ w.length) :
    (cumulWeights w).getD k 0 = (w.take k).sum := by
  rw [cumulWeights, getD_map_range', if_pos (by omega)]

lemma cumul_zero (w : List ℚ) : (cumulWeights w).getD 0 0 = 0 := by
  rw [cumul_getD w 0 (by omega)]
  simp

lemma cumul_last (w : List ℚ) : (cumulWeights w).getD w.length 0 = w.sum := by
  rw [cumul_getD w _ le_rfl, List.take_length]
lemma invertCum_bounds (es cum : List ℚ) (t : ℚ)
    (hlen : cum.length = es.length) (hlen2 : 2 ≤ cum.length)
    (hes : List.Chain' (· < ·) es)
    (hcum0 : cum.getD 0 0 = 0)
    (ht0 : 0 ≤ t) (htW : t < cum.getD (cum.length - 1) 0) :
    es.getD (findBin t cum) 0 ≤ invertCum es cum t ∧
    invertCum es cum t < es.getD (findBin t cum + 1) 0 ∧
    findBin t cum + 1 < cum.length ∧
    (cum.getD (findBin t cum) 0 < t → es.getD (findBin t cum) 0 < invertCum es cum t) := by
  have hble := findBin_le t cum (by rw [hcum0]; exact ht0)
  obtain ⟨hc1, hbl⟩ := findBin_lt t cum hlen2 htW
  set b := findBin t cum with hbdef
  have hden : 0 < cum.getD (b + 1) 0 - cum.getD b 0 := by linarith
  have hee : es.getD b 0 < es.getD (b + 1) 0 :=
    chain'_getD_lt es hes b (by omega)
  have hratio0 : 0 ≤ (t - cum.getD b 0) / (cum.getD (b + 1) 0 - cum.getD b 0) :=
    div_nonneg (by linarith) (le_of_lt hden)
  have hratio1 : (t - cum.getD b 0) / (cum.getD (b + 1) 0 - cum.getD b 0) < 1 :=
    (div_lt_one hden).mpr (by linarith)
  have hinv : invertCum es cum t = es.getD b 0 +
      (t - cum.getD b 0) / (cum.getD (b + 1) 0 - cum.getD b 0) *
        (es.getD (b + 1) 0 - es.getD b 0) := rfl
  rw [hinv]
  refine ⟨?_, ?_, by omega, ?_⟩
  · have := mul_nonneg hratio0 (le_of_lt (sub_pos.mpr hee))
    linarith
  · have h1 := mul_lt_mul_of_pos_right hratio1 (sub_pos.mpr hee)
    rw [one_mul] at h1
    linarith
  · intro hct
    have hrpos : 0 < (t - cum.getD b 0) / (cum.getD (b + 1) 0 - cum.getD b 0) :=
      div_pos (by linarith) hden
    have := mul_pos hrpos (sub_pos.mpr hee)
    linarith

lemma invertCum_strict_mono (es cum : List ℚ) (t t' : ℚ)
    (hlen : cum.length = es.length) (hlen2 : 2 ≤ cum.length)
    (hes : List.Chain' (· < ·) es)
    (hcum0 : cum.getD 0 0 = 0)
    (ht0 : 0 ≤ t) (htW : t < cum.getD (cum.length - 1) 0)
    (ht0' : 0 ≤ t') (htW' : t' < cum.getD (cum.length - 1) 0)
    (htt : t < t') :
    invertCum es cum t < invertCum es cum t' := by
  have hb := invertCum_bounds es cum t hlen hlen2 hes hcum0 ht0 htW
  have hb' := invertCum_bounds es cum t' hlen hlen2 hes hcum0 ht0' htW'
  have hmono := findBin_mono t t' (le_of_lt htt) cum
  rcases eq_or_lt_of_le hmono with heq | hlt
  · have hble := findBin_le t cum (by rw [hcum0]; exact ht0)
    have hc1' := (findBin_lt t' cum hlen2 htW').1
    set b := findBin t cum with hbdef
    rw [← heq] at hc1'
    have hden : 0 < cum.getD (b + 1) 0 - cum.getD b 0 := by linarith
    have hee : es.getD b 0 < es.getD (b + 1) 0 :=
      chain'_getD_lt es hes b (by have := hb.2.2.1; omega)
    rw [show invertCum es cum t = es.getD b 0 +
        (t - cum.getD b 0) / (cum.getD (b + 1) 0 - cum.getD b 0) *
          (es.getD (b + 1) 0 - es.getD b 0) from rfl,
      show invertCum es cum t' = es.getD b 0 +
        (t' - cum.getD b 0) / (cum.getD (b + 1) 0 - cum.getD b 0) *
          (es.getD (b + 1) 0 - es.getD b 0) from by rw [invertCum, ← heq]]
    have hr : (t - cum.getD b 0) / (cum.getD (b + 1) 0 - cum.getD b 0) <
        (t' - cum.getD b 0) / (cum.getD (b + 1) 0 - cum.getD b 0) :=
      div_lt_div_of_pos_right (by linarith) hden
    have := mul_lt_mul_of_pos_right hr (sub_pos.mpr hee)
    linarith
  · calc invertCum es cum t < es.getD (findBin t cum + 1) 0 := hb.2.1
      _ ≤ es.getD (findBin t' cum) 0 := chain'_getD_mono es hes _ _ (by omega)
          (by have := hb'.2.2.1; omega)
      _ ≤ invertCum es cum t' := hb'.1

theorem vegasAdaptDim_chain (damp : ℚ → ℚ) (f es : List ℚ) (nbins : Nat)
    (hd0 : ∀ y, 0 ≤ y → 0 ≤ damp y) (hd1 : ∀ y, 0 < y → 0 < damp y)
    (hf : ∀ y ∈ f, 0 ≤ y)
    (hes : List.Chain' (· < ·) es)
    (h0 : es.getD 0 0 = 0) (hlast : es.getD (es.length - 1) 0 = 1)
    (helen : es.length = f.length + 1) (hn : 1 ≤ nbins) :
    List.Chain' (· < ·) (vegasAdaptDim damp f es nbins) := by
  rw [vegasAdaptDim]
  split_ifs with hsum
  · exact uniformEdges_chain nbins hn
  simp only []
  have hnq : (0 : ℚ) < (nbins : ℚ) := by exact_mod_cast hn
  obtain ⟨j, hj, hjpos⟩ := exists_pos_getD_of_sum_ne f hf hsum
  set s := smoothImportance f with hsdef
  set w := s.map (fun r => damp (r / s.sum)) with hwdef
  set cum := cumulWeights w with hcumdef
  have hs_len : s.length = f.length := smooth_length f
  have hs_nonneg : ∀ y ∈ s, 0 ≤ y := smooth_nonneg f hf
  have hs_pos : 0 < s.getD j 0 := smooth_pos_at f hf j hj hjpos
  have hssum_pos : 0 < s.sum := sum_pos_of_mem s hs_nonneg j (by omega) hs_pos
  have hw_len : w.length = f.length := by rw [hwdef, List.length_map, hs_len]
  have hw_nonneg : ∀ y ∈ w, 0 ≤ y := by
    intro y hy
    rw [hwdef] at hy
    obtain ⟨r, hr, rfl⟩ := List.mem_map.mp hy
    exact hd0 _ (div_nonneg (hs_nonneg r hr) (le_of_lt hssum_pos))
  have hw_pos : 0 < w.getD j 0 := by
    rw [hwdef, List.getD_eq_getElem _ _ (by rw [List.length_map]; omega),
      List.getElem_map]
    apply hd1
    apply div_pos _ hssum_pos
    rw [← List.getD_eq_getElem s 0 (by omega)]
    exact hs_pos
  have hW_pos : 0 < w.sum := sum_pos_of_mem w hw_nonneg j (by omega) hw_pos
  have hcum_len : cum.length = w.length + 1 := cumul_length w
  have hcum0 : cum.getD 0 0 = 0 := cumul_zero w
  have hcum_last : cum.getD (cum.length - 1) 0 = w.sum := by
    rw [show cum.length - 1 = w.length from by omega]
    exact cumul_last w
  have heqlen : cum.length = es.length := by rw [hcum_len, hw_len, helen]
  have hlen2 : 2 ≤ cum.length := by omega
  have htk : ∀ k : Nat, 1 ≤ k → k < nbins →
      0 ≤ (k : ℚ) * w.sum / (nbins : ℚ) ∧
      (k : ℚ) * w.sum / (nbins : ℚ) < cum.getD (cum.length - 1) 0 ∧
      0 < (k : ℚ) * w.sum / (nbins : ℚ) := by
    intro k hk1 hk2
    have hkq : (0 : ℚ) < (k : ℚ) := by exact_mod_cast hk1
    have hkn : (k : ℚ) < (nbins : ℚ) := by exact_mod_cast hk2
    have hpos : 0 < (k : ℚ) * w.sum / (nbins : ℚ) :=
      div_pos (mul_pos hkq hW_pos) hnq
    refine ⟨le_of_lt hpos, ?_, hpos⟩
    rw [hcum_last, div_lt_iff hnq]
    nlinarith
  have hmain : ∀ k : Nat, 1 ≤ k → k < nbins →
      0 < invertCum es cum ((k : ℚ) * w.sum / (nbins : ℚ)) ∧
      invertCum es cum ((k : ℚ) * w.sum / (nbins : ℚ)) < 1 := by
    intro k hk1 hk2
    obtain ⟨ht0', htW', htpos⟩ := htk k hk1 hk2
    have hbnd := invertCum_bounds es cum _ heqlen hlen2 hes hcum0 ht0' htW'
    constructor
    · by_cases hb0 : findBin ((k : ℚ) * w.sum / (nbins : ℚ)) cum = 0
      · have hstrict := hbnd.2.2.2 (by rw [hb0, hcum0]; exact htpos)
        rw [hb0, h0] at hstrict
        exact hstrict
      · have h1b : es.getD 1 0 ≤ es.getD (findBin ((k : ℚ) * w.sum / (nbins : ℚ)) cum) 0 :=
          chain'_getD_mono es hes 1 _ (by omega) (by have := hbnd.2.2.1; omega)
        have h01 : es.getD 0 0 < es.getD 1 0 := chain'_getD_lt es hes 0 (by omega)
        rw [h0] at h01
        have := hbnd.1
        linarith
    · have h2 := hbnd.2.1
      have h3 : es.getD (findBin ((k : ℚ) * w.sum / (nbins : ℚ)) cum + 1) 0 ≤
          es.getD (es.length - 1) 0 :=
        chain'_getD_mono es hes _ _ (by have := hbnd.2.2.1; omega) (by omega)
      rw [hlast] at h3
      linarith
  apply chain'_of_getD
  intro k hk
  rw [List.length_map, List.length_range] at hk
  rw [getD_map_range', getD_map_range', if_pos (by omega : k < nbins + 1),
    if_pos (by omega : k + 1 < nbins + 1)]
  by_cases hk0 : k = 0
  · subst hk0
    rw [if_pos (rfl : (0 : Nat) = 0), if_neg (by omega : ¬ 0 + 1 = 0)]
    by_cases h1n : 0 + 1 = nbins
    · rw [if_pos h1n]
      norm_num
    · rw [if_neg h1n]
      exact (hmain (0 + 1) (by omega) (by omega)).1
  · rw [if_neg hk0, if_neg (by omega : ¬ k = nbins), if_neg (by omega : ¬ k + 1 = 0)]
    by_cases hkn : k + 1 = nbins
    · rw [if_pos hkn]
      exact (hmain k (by omega) (by omega)).2
    · rw [if_neg hkn]
      obtain ⟨ht0a, htWa, _⟩ := htk k (by omega) (by omega)
      obtain ⟨ht0b, htWb, _⟩ := htk (k + 1) (by omega) (by omega)
      apply invertCum_strict_mono es cum _ _ heqlen hlen2 hes hcum0 ht0a htWa ht0b htWb
      apply div_lt_div_of_pos_right _ hnq
      have hc : (k : ℚ) < ((k + 1 : ℕ) : ℚ) := by exact_mod_cast Nat.lt_succ_self k
      nlinarith
lemma adaptDim_length (rate x : ℚ) (es : List ℚ) :
    (adaptDim rate x es).length = es.length := by
  rw [adaptDim]
  split_ifs <;> simp [List.length_set]

lemma adapt_dimEdges (m : AdaptiveMap2) (rate : ℚ) (point : List ℚ)
    (hlen : m.m_hist.length = m.m_dims * (m.m_bins + 1))
    (d : Nat) (hd : d < m.m_dims) :
    (m.Adapt rate point).dimEdges d = adaptDim rate (point.getD d 0) (m.dimEdges d) := by
  show ((((List.range m.m_dims).flatMap
      (fun d' => adaptDim rate (point.getD d' 0) (m.dimEdges d'))).drop
        (d * (m.m_bins + 1))).take (m.m_bins + 1)) = _
  exact flatMap_slice _ _ m.m_dims
    (fun d' hd' => by rw [adaptDim_length, dimEdges_length m hlen d' hd']) d hd

lemma upper_edge_eq_lower_succ (m : AdaptiveMap2) (d b : Nat) :
    m.upper_edge d b = m.lower_edge d (b + 1) := by
  rw [AdaptiveMap2.upper_edge, AdaptiveMap2.lower_edge, Nat.add_assoc]

/-- On a uniform grid the bin-interpolation rule is the identity with unit
Jacobian, dimension by dimension. -/
lemma mapPointFrom_uniform (m : AdaptiveMap2) (hbins : 1 ≤ m.m_bins)
    (huni : ∀ d i, d < m.m_dims → i ≤ m.m_bins →
      m.lower_edge d i = (i : ℚ) / (m.m_bins : ℚ)) :
    ∀ (xs : List ℚ) (d : Nat), d + xs.length ≤ m.m_dims →
      (∀ x ∈ xs, 0 ≤ x ∧ x < 1) → m.mapPointFrom d xs = (xs, 1) := by
  intro xs
  induction xs with
  | nil => intro d _ _; rfl
  | cons x xs ih =>
    intro d hd hx
    obtain ⟨hx0, hx1⟩ := hx x (List.mem_cons_self _ _)
    have hbq : (0 : ℚ) < (m.m_bins : ℚ) := by exact_mod_cast hbins
    have hy0 : 0 ≤ x * (m.m_bins : ℚ) := mul_nonneg hx0 (le_of_lt hbq)
    have hyb : x * (m.m_bins : ℚ) < (m.m_bins : ℚ) := by
      calc x * (m.m_bins : ℚ) < 1 * (m.m_bins : ℚ) := mul_lt_mul_of_pos_right hx1 hbq
        _ = (m.m_bins : ℚ) := one_mul _
    have hfl0 : 0 ≤ ⌊x * (m.m_bins : ℚ)⌋ := Int.floor_nonneg.mpr hy0
    have hflb : ⌊x * (m.m_bins : ℚ)⌋ < (m.m_bins : ℤ) := by
      rw [Int.floor_lt]
      exact_mod_cast hyb
    have hbb : (⌊x * (m.m_bins : ℚ)⌋).toNat < m.m_bins := by omega
    have hbz : (((⌊x * (m.m_bins : ℚ)⌋).toNat : ℤ)) = ⌊x * (m.m_bins : ℚ)⌋ :=
      Int.toNat_of_nonneg hfl0
    have hbq1 : (((⌊x * (m.m_bins : ℚ)⌋).toNat : Nat) : ℚ) ≤ x * (m.m_bins : ℚ) := by
      have h1 := Int.floor_le (x * (m.m_bins : ℚ))
      have h2 : (((⌊x * (m.m_bins : ℚ)⌋).toNat : Nat) : ℚ) = ((⌊x * (m.m_bins : ℚ)⌋ : ℤ) : ℚ) := by
        exact_mod_cast congrArg (fun z : ℤ => (z : ℚ)) hbz
      rw [h2]
      exact h1
    have hbq2 : x * (m.m_bins : ℚ) < (((⌊x * (m.m_bins : ℚ)⌋).toNat : Nat) : ℚ) + 1 := by
      have h1 := Int.lt_floor_add_one (x * (m.m_bins : ℚ))
      have h2 : (((⌊x * (m.m_bins : ℚ)⌋).toNat : Nat) : ℚ) = ((⌊x * (m.m_bins : ℚ)⌋ : ℤ) : ℚ) := by
        exact_mod_cast congrArg (fun z : ℤ => (z : ℚ)) hbz
      rw [h2]
      exact_mod_cast h1
    have hdd : d < m.m_dims := by
      have := hd
      simp only [List.length_cons] at this
      omega
    have hlo : m.lower_edge d ((⌊x * (m.m_bins : ℚ)⌋).toNat) =
        (((⌊x * (m.m_bins : ℚ)⌋).toNat : Nat) : ℚ) / (m.m_bins : ℚ) :=
      huni d _ hdd (le_of_lt hbb)
    have hhi : m.upper_edge d ((⌊x * (m.m_bins : ℚ)⌋).toNat) =
        ((((⌊x * (m.m_bins : ℚ)⌋).toNat : Nat) + 1 : Nat) : ℚ) / (m.m_bins : ℚ) := by
      rw [upper_edge_eq_lower_succ]
      exact huni d _ hdd (by omega)
    have hmapc : m.mapCoord d x = (x, 1) := by
      simp only [AdaptiveMap2.mapCoord]
      rw [hlo, hhi]
      have hbne : (m.m_bins : ℚ) ≠ 0 := ne_of_gt hbq
      rw [Prod.mk.injEq]
      constructor
      · push_cast
        field_simp
        try ring
      · push_cast
        field_simp
        try ring
    simp only [AdaptiveMap2.mapPointFrom]
    rw [hmapc, ih (d + 1) (by simp only [List.length_cons] at hd; omega)
      (fun z hz => hx z (List.mem_cons_of_mem _ hz))]
    simp

/-- C3: for a map whose grid is uniform (`bins` equal-width bins on [0,1]
in every dimension), mapping any point with all coordinates in [0,1)
through the bin-interpolation rule returns the input point unchanged and
Jacobian 1, for every dimension count. -/
theorem uniform_map_identity (m : AdaptiveMap2) (xs : List ℚ)
    (hbins : 1 ≤ m.m_bins) (hxs : xs.length = m.m_dims)
    (huni : ∀ d i, d < m.m_dims → i ≤ m.m_bins →
      m.lower_edge d i = (i : ℚ) / (m.m_bins : ℚ))
    (hx : ∀ x ∈ xs, 0 ≤ x ∧ x < 1) :
    m.mapPoint xs = (xs, 1) :=
  mapPointFrom_uniform m hbins huni xs 0 (by omega) hx

/-- Witness for C3 on the uniform 2-dimensional, 2-bin map. -/
theorem uniform_map_identity_witness :
    (AdaptiveMap2.construct 2 2).mapPoint [1/3, 3/4] = ([1/3, 3/4], 1) :=
  uniform_map_identity _ _ (by decide) rfl
    (fun d i hd hi => construct_lower_edge 2 2 d i (by norm_num) hd hi)
    (by intro z hz; fin_cases hz <;> norm_num)

/-- C6: `Deserialize (Serialize m)` restores a map with identical
dimension count, bin count and edge values, and `Deserialize` rejects with
`CorruptState` any stream whose declared dims/bins header does not match
the number of edge values present. -/
theorem serialize_roundtrip :
    (∀ m : AdaptiveMap2, m.m_hist.length = m.m_dims * (m.m_bins + 1) →
      AdaptiveMap2.Deserialize (AdaptiveMap2.Serialize m) = Except.ok m) ∧
    (∀ s : MapStream, s.payload.length ≠ s.dims * (s.bins + 1) →
      AdaptiveMap2.Deserialize s = Except.error "CorruptState") := by
  constructor
  · intro m hm
    simp only [AdaptiveMap2.Serialize, AdaptiveMap2.Deserialize]
    rw [if_pos hm]
  · intro s hs
    simp only [AdaptiveMap2.Deserialize]
    rw [if_neg hs]

/-- Witness for C6: round-trip on `AdaptiveMap2(1, 2)` and rejection of a
stream with a mismatched header. -/
theorem serialize_roundtrip_witness :
    AdaptiveMap2.Deserialize (AdaptiveMap2.Serialize (AdaptiveMap2.construct 1 2)) =
      Except.ok (AdaptiveMap2.construct 1 2) ∧
    AdaptiveMap2.Deserialize ⟨1, 2, [0]⟩ = Except.error "CorruptState" :=
  ⟨serialize_roundtrip.1 _ (by decide), serialize_roundtrip.2 ⟨1, 2, [0]⟩ (by decide)⟩

/-- C2: in `Dipole::operator()`, `Gmp` is assigned twice and the second
assignment (coefficient `muN`) overwrites the first: the returned values
always satisfy `Gmp = muN * Gep`, and the configured `muP` has no influence
on the returned `Gmp`. -/
theorem dipole_Gmp_overwritten (ff : Dipole) (mpGeV Q2 : ℚ) :
    (ff.eval mpGeV Q2).Gmp = ff.muN * (ff.eval mpGeV Q2).Gep ∧
    (∀ p q : ℚ,
      (Dipole.eval ⟨ff.lambda, ff.MA, p, ff.muN⟩ mpGeV Q2).Gmp =
      (Dipole.eval ⟨ff.lambda, ff.MA, q, ff.muN⟩ mpGeV Q2).Gmp) := by
  refine ⟨rfl, fun p q => rfl⟩

/-- C8: `FormFactor::Fill` establishes the isoscalar/isovector
decomposition identities exactly: `Ges + Gev = 2 Gep`, `Ges - Gev = 2 Gen`,
`Gms + Gmv = 2 Gmp`, `Gms - Gmv = 2 Gmn`, and (for `tau ≠ -1`) the Dirac
and Pauli combinations `F1s`, `F2s`, `F1v`, `F2v` in terms of the updated
Sachs values. -/
theorem fill_isoscalar_isovector (v : Values) (tau : ℚ) :
    (Fill tau v).Ges + (Fill tau v).Gev = 2 * (Fill tau v).Gep ∧
    (Fill tau v).Ges - (Fill tau v).Gev = 2 * (Fill tau v).Gen ∧
    (Fill tau v).Gms + (Fill tau v).Gmv = 2 * (Fill tau v).Gmp ∧
    (Fill tau v).Gms - (Fill tau v).Gmv = 2 * (Fill tau v).Gmn ∧
    (tau ≠ -1 →
      (Fill tau v).F1s = ((Fill tau v).Ges + tau * (Fill tau v).Gms) / (1 + tau) ∧
      (Fill tau v).F2s = ((Fill tau v).Gms + tau * (Fill tau v).Ges) / (1 + tau) ∧
      (Fill tau v).F1v = ((Fill tau v).Gev + tau * (Fill tau v).Gmv) / (1 + tau) ∧
      (Fill tau v).F2v = ((Fill tau v).Gmv + tau * (Fill tau v).Gev) / (1 + tau)) := by
  refine ⟨by simp [Fill]; ring, by simp [Fill]; ring, by simp [Fill]; ring,
    by simp [Fill]; ring, fun _ => ⟨rfl, rfl, rfl, rfl⟩⟩

/-- Witness for C8 at a concrete input. -/
theorem fill_isoscalar_isovector_witness :
    (1 : ℚ) ≠ -1 ∧
    (Fill 1 Values.zero).F1s =
      ((Fill 1 Values.zero).Ges + 1 * (Fill 1 Values.zero).Gms) / (1 + 1) :=
  ⟨by norm_num, ((fill_isoscalar_isovector Values.zero 1).2.2.2.2 (by norm_num)).1⟩

/-- C9: `FormFactor::Build` succeeds exactly on the four recognised names,
returning the corresponding concrete kind, and throws on every other name
(never null, never a silent fall-through). -/
theorem build_recognises_exactly_four (s : String) :
    (Build s = Except.ok FFKind.dipole ↔ s = "Dipole") ∧
    (Build s = Except.ok FFKind.kelly ↔ s = "Kelly") ∧
    (Build s = Except.ok FFKind.bbba ↔ s = "BBBA") ∧
    (Build s = Except.ok FFKind.arringtonHill ↔ s = "ArringtonHill") ∧
    (s ≠ "Dipole" → s ≠ "Kelly" → s ≠ "BBBA" → s ≠ "ArringtonHill" →
      Build s = Except.error ("Invalid Form Factor: " ++ s)) := by
  unfold Build
  split_ifs with h1 h2 h3 h4 <;>
    simp_all

/-- Witness for C9 at concrete inputs. -/
theorem build_recognises_exactly_four_witness :
    "NotAName" ≠ "Dipole" ∧
    Build "NotAName" = Except.error ("Invalid Form Factor: " ++ "NotAName") :=
  ⟨by decide,
    (build_recognises_exactly_four "NotAName").2.2.2.2
      (by decide) (by decide) (by decide) (by decide)⟩

/-- C5: `Split` is a refinement: the bin count is multiplied by 2/3/4
according to the mode, each dimension's new edge list is the per-bin
insertion applied to its old edge list, every old edge value still occurs,
the new edges of original bin `j` sit at the linear interpolation points
`old[j] + r*(old[j+1]-old[j])/factor` (`r = 0` the preserved old edge,
`r = 1..factor-1` the midpoint / third / quartile points), and the last
edge is unchanged. -/
theorem split_refinement (m : AdaptiveMap2) (mode : AdaptiveMapSplit)
    (hlen : m.m_hist.length = m.m_dims * (m.m_bins + 1)) (d : Nat) (hd : d < m.m_dims) :
    (m.Split mode).m_bins = m.m_bins * splitFactor mode ∧
    (m.Split mode).dimEdges d = splitEdges mode (m.dimEdges d) ∧
    (∀ x ∈ m.dimEdges d, x ∈ (m.Split mode).dimEdges d) ∧
    (∀ j r : Nat, j < m.m_bins → r < splitFactor mode →
      ((m.Split mode).dimEdges d).getD (j * splitFactor mode + r) 0 =
        (m.dimEdges d).getD j 0 +
          (r : ℚ) * ((m.dimEdges d).getD (j + 1) 0 - (m.dimEdges d).getD j 0) /
            (splitFactor mode : ℚ)) ∧
    ((m.Split mode).dimEdges d).getLast? = (m.dimEdges d).getLast? := by
  have hde := split_dimEdges m mode hlen d hd
  refine ⟨rfl, hde, ?_, ?_, ?_⟩
  · intro x hx
    rw [hde]
    exact splitEdges_subset mode _ x hx
  · intro j r hj hr
    rw [hde]
    exact splitEdges_getD mode _ j r
      (by rw [dimEdges_length m hlen d hd]; omega) hr
  · rw [hde]
    exact splitEdges_getLast? mode _

/-- Witness for C5 on a concrete one-dimensional two-bin map. -/
theorem split_refinement_witness :
    (0 : Nat) < 1 ∧
    ((AdaptiveMap2.mk [0, 1/2, 1] 1 2).Split AdaptiveMapSplit.half).dimEdges 0 =
      splitEdges AdaptiveMapSplit.half
        ((AdaptiveMap2.mk [0, 1/2, 1] 1 2).dimEdges 0) :=
  ⟨by norm_num,
    (split_refinement (AdaptiveMap2.mk [0, 1/2, 1] 1 2) AdaptiveMapSplit.half
      (by decide) 0 (by decide)).2.1⟩

/-- C4: strict monotonicity of edges is preserved by every adaptation
operation: the split-variant single-sample `Adapt`, the split-variant
`Split` in every mode, and the primary map's batch `Adapt` (for any
damping function that preserves nonnegativity and positivity, as the
power `x^dampening` with `0 < dampening ≤ 1` does) each map a state whose
per-dimension edges strictly increase from 0 to 1 to a state whose
per-dimension edges strictly increase. -/
theorem adapt_split_monotonic :
    (∀ (m : AdaptiveMap2) (rate : ℚ) (point : List ℚ),
      m.m_hist.length = m.m_dims * (m.m_bins + 1) →
      0 < rate → rate ≤ 1 →
      m.m_dims ≤ point.length →
      (∀ x ∈ point, 0 ≤ x ∧ x < 1) →
      1 ≤ m.m_bins →
      (∀ d, d < m.m_dims → List.Chain' (· < ·) (m.dimEdges d) ∧
        (m.dimEdges d).getD 0 0 = 0 ∧
        (m.dimEdges d).getD ((m.dimEdges d).length - 1) 0 = 1) →
      ∀ d, d < m.m_dims → List.Chain' (· < ·) ((m.Adapt rate point).dimEdges d)) ∧
    (∀ (m : AdaptiveMap2) (mode : AdaptiveMapSplit),
      m.m_hist.length = m.m_dims * (m.m_bins + 1) →
      (∀ d, d < m.m_dims → List.Chain' (· < ·) (m.dimEdges d)) →
      ∀ d, d < m.m_dims → List.Chain' (· < ·) ((m.Split mode).dimEdges d)) ∧
    (∀ (damp : ℚ → ℚ) (m : AdaptiveMap) (nbins : Nat),
      (∀ y, 0 ≤ y → 0 ≤ damp y) → (∀ y, 0 < y → 0 < damp y) →
      1 ≤ nbins →
      (∀ d, d < m.grid.length →
        List.Chain' (· < ·) (m.grid.getD d []) ∧
        (m.grid.getD d []).getD 0 0 = 0 ∧
        (m.grid.getD d []).getD ((m.grid.getD d []).length - 1) 0 = 1 ∧
        (m.grid.getD d []).length = (m.sumF.getD d []).length + 1 ∧
        (∀ y ∈ m.sumF.getD d [], 0 ≤ y)) →
      ∀ d, d < m.grid.length →
        List.Chain' (· < ·) ((m.Adapt damp nbins).grid.getD d [])) := by
  refine ⟨?_, ?_, ?_⟩
  · intro m rate point hlen hr0 hr1 hplen hpt hbins hinv d hd
    rw [adapt_dimEdges m rate point hlen d hd]
    obtain ⟨hch, hz, ho⟩ := hinv d hd
    have hmem : point.getD d 0 ∈ point := by
      rw [List.getD_eq_getElem _ _ (by omega)]
      exact List.getElem_mem (by omega)
    exact adaptDim_chain rate (point.getD d 0) (m.dimEdges d) hr0 hr1
      (hpt _ hmem).1 (hpt _ hmem).2 hch hz ho
      (by rw [dimEdges_length m hlen d hd]; omega)
  · intro m mode hlen hinv d hd
    rw [split_dimEdges m mode hlen d hd]
    exact splitEdges_chain mode _ (hinv d hd)
  · intro damp m nbins hd0 hd1 hn hinv d hd
    have hgrid : (m.Adapt damp nbins).grid.getD d [] =
        vegasAdaptDim damp (m.sumF.getD d []) (m.grid.getD d []) nbins := by
      show ((List.range m.grid.length).map
        (fun d' => vegasAdaptDim damp (m.sumF.getD d' []) (m.grid.getD d' []) nbins)).getD
          d [] = _
      rw [getD_map_range', if_pos hd]
    rw [hgrid]
    obtain ⟨hch, hz, ho, hl, hnn⟩ := hinv d hd
    exact vegasAdaptDim_chain damp _ _ nbins hd0 hd1 hnn hch hz ho hl hn

/-- Witness for C4: all three adaptation operations on concrete
one-dimensional two-bin states. -/
theorem adapt_split_monotonic_witness :
    List.Chain' (· < ·)
      (((AdaptiveMap2.mk [0, 1/2, 1] 1 2).Adapt (1/2) [1/4]).dimEdges 0) ∧
    List.Chain' (· < ·)
      (((AdaptiveMap2.mk [0, 1/2, 1] 1 2).Split AdaptiveMapSplit.half).dimEdges 0) ∧
    List.Chain' (· < ·)
      (((AdaptiveMap.mk [[0, 1/2, 1]] [[1, 1]]).Adapt id 2).grid.getD 0 []) := by
  refine ⟨adapt_split_monotonic.1 (AdaptiveMap2.mk [0, 1/2, 1] 1 2) (1/2) [1/4]
      (by decide) (by norm_num) (by norm_num) (by decide)
      (by intro x hx; fin_cases hx <;> norm_num)
      (by decide) ?_ 0 (by decide),
    adapt_split_monotonic.2.1 (AdaptiveMap2.mk [0, 1/2, 1] 1 2) AdaptiveMapSplit.half
      (by decide) ?_ 0 (by decide),
    adapt_split_monotonic.2.2 id (AdaptiveMap.mk [[0, 1/2, 1]] [[1, 1]]) 2
      (fun y h => h) (fun y h => h) (by norm_num) ?_ 0 (by norm_num)⟩
  · intro d hd
    have hd1 : d < 1 := hd
    interval_cases d
    refine ⟨?_, ?_, ?_⟩ <;>
      norm_num [AdaptiveMap2.dimEdges, List.chain'_cons]
  · intro d hd
    have hd1 : d < 1 := hd
    interval_cases d
    norm_num [AdaptiveMap2.dimEdges, List.chain'_cons]
  · intro d hd
    have hd1 : d < 1 := hd
    interval_cases d
    refine ⟨?_, ?_, ?_, ?_, ?_⟩ <;>
      norm_num [List.chain'_cons]

/-- C10: each scalar setter of `Nucleus` modifies only its own field:
`SetBindingEnergy`, `SetFermiMomentum` and `SetPotential` each update
exactly the matching getter and leave every other observable unchanged. -/
theorem nucleus_setters_frame {P : Type} (n : Nucleus P) (e : ℚ) :
    ((n.SetBindingEnergy e).BindingEnergy = e ∧
     (n.SetBindingEnergy e).FermiMomentum = n.FermiMomentum ∧
     (n.SetBindingEnergy e).PotentialEnergy = n.PotentialEnergy ∧
     (n.SetBindingEnergy e).Radius = n.Radius ∧
     (n.SetBindingEnergy e).Nucleons = n.Nucleons ∧
     (n.SetBindingEnergy e).Protons = n.Protons ∧
     (n.SetBindingEnergy e).Neutrons = n.Neutrons) ∧
    ((n.SetFermiMomentum e).FermiMomentum = e ∧
     (n.SetFermiMomentum e).BindingEnergy = n.BindingEnergy ∧
     (n.SetFermiMomentum e).PotentialEnergy = n.PotentialEnergy ∧
     (n.SetFermiMomentum e).Radius = n.Radius ∧
     (n.SetFermiMomentum e).Nucleons = n.Nucleons ∧
     (n.SetFermiMomentum e).Protons = n.Protons ∧
     (n.SetFermiMomentum e).Neutrons = n.Neutrons) ∧
    ((n.SetPotential e).PotentialEnergy = e ∧
     (n.SetPotential e).BindingEnergy = n.BindingEnergy ∧
     (n.SetPotential e).FermiMomentum = n.FermiMomentum ∧
     (n.SetPotential e).Radius = n.Radius ∧
     (n.SetPotential e).Nucleons = n.Nucleons ∧
     (n.SetPotential e).Protons = n.Protons ∧
     (n.SetPotential e).Neutrons = n.Neutrons) := by
  refine ⟨⟨rfl, rfl, rfl, rfl, rfl, rfl, rfl⟩,
    ⟨rfl, rfl, rfl, rfl, rfl, rfl, rfl⟩,
    ⟨rfl, rfl, rfl, rfl, rfl, rfl, rfl⟩⟩

end Achilles
